import Mathlib

/-!
Verification of the Chebyshev-series evaluator from keycheb.py.

The source has three function-like units:
  - `t n x`: the Chebyshev polynomials of the first kind by naive double
    recursion (`t(0)=1`, `t(1)=x`, `t(n)=2*x*t(n-1)-t(n-2)`);
  - `tpoly c x`: the naive basis-summation oracle
    `sum(c[i] * t(i, x) for i in range(len(c)))`;
  - `clenshaw a x`: Clenshaw's backward recurrence with explicit degenerate
    cases for empty, constant and linear coefficient sequences.

All definitions are parametric over a commutative ring, so every theorem
stated over `ℝ` below is an instance of exact (real/rational) arithmetic.
-/

namespace Keycheb

variable {R : Type*} [CommRing R]

/-- Source function `t`: `t(0) = 1`, `t(1) = x`,
`t(n) = 2 * x * t(n - 1, x) - t(n - 2, x)` for `n ≥ 2`. -/
def t : ℕ → R → R
  | 0, _ => 1
  | 1, x => x
  | n + 2, x => 2 * x * t (n + 1) x - t n x

/-- Source function `tpoly`: `sum(c[i] * t(i, x) for i in range(len(c)))`. -/
def tpoly (c : List R) (x : R) : R :=
  ((List.range c.length).map fun i => c.getD i 0 * t i x).sum

/-- Source function `clenshaw`: `N = len(a) - 1`; return `0.0` when `N < 0`,
`a[0]` when `N = 0`, `a[0] + a[1] * x` when `N = 1`; otherwise run the loop
`for k in reversed(range(N))` carrying the state `(b_k_plus_2, b_k_plus_1)`
seeded with `(0.0, a[N])`, stepping to `(b_k_plus_1, a[k] + 2*x*b_k_plus_1 -
b_k_plus_2)`, and finally return `b_k_plus_1 - x * b_k_plus_2`. -/
def clenshaw (a : List R) (x : R) : R :=
  let N : ℤ := (a.length : ℤ) - 1
  if N < 0 then 0
  else if N = 0 then a.getD 0 0
  else if N = 1 then a.getD 0 0 + a.getD 1 0 * x
  else
    let s := ((List.range N.toNat).reverse).foldl
      (fun (b : R × R) k => (b.2, a.getD k 0 + 2 * x * b.2 - b.1))
      ((0 : R), a.getD N.toNat 0)
    s.2 - x * s.1

/-- Structural form of the Clenshaw loop: processing the coefficient list
`a_k, ..., a_N` from the front yields the state pair `(b_{k+1}, b_k)`. -/
def clenshawRec (x : R) : List R → R × R
  | [] => (0, 0)
  | c :: cs =>
    let s := clenshawRec x cs
    (s.2, c + 2 * x * s.2 - s.1)

/-- Chebyshev polynomials of the second kind, used only in proofs:
`u 0 = 1`, `u 1 = 2x`, same three-term recurrence as `t`. -/
def u : ℕ → R → R
  | 0, _ => 1
  | 1, x => 2 * x
  | n + 2, x => 2 * x * u (n + 1) x - u n x

/-- Structural form of an indexed basis sum `Σ_i l[i] * p i`. -/
def psum : (ℕ → R) → List R → R
  | _, [] => 0
  | p, c :: cs => c * p 0 + psum (fun i => p (i + 1)) cs

lemma psum_eq_sum_range (p : ℕ → R) (l : List R) :
    psum p l = ((List.range l.length).map fun i => l.getD i 0 * p i).sum := by
  induction l generalizing p with
  | nil => simp [psum]
  | cons c cs ih =>
    rw [psum, List.length_cons, List.range_succ_eq_map, List.map_cons,
      List.sum_cons, List.map_map]
    simp only [List.getD_cons_zero, Function.comp_def, Nat.succ_eq_add_one,
      List.getD_cons_succ]
    rw [ih]

lemma tpoly_eq_psum (c : List R) (x : R) : tpoly c x = psum (fun i => t i x) c :=
  (psum_eq_sum_range _ _).symm

lemma psum_congr {p q : ℕ → R} (h : ∀ i, p i = q i) :
    ∀ l : List R, psum p l = psum q l := by
  intro l
  induction l generalizing p q with
  | nil => rfl
  | cons c cs ih => rw [psum, psum, h 0, ih fun i => h (i + 1)]

lemma psum_sub (p q : ℕ → R) (l : List R) :
    psum (fun i => p i - q i) l = psum p l - psum q l := by
  induction l generalizing p q with
  | nil => simp [psum]
  | cons c cs ih => rw [psum, psum, psum, ih]; ring

lemma psum_mul (c : R) (p : ℕ → R) (l : List R) :
    psum (fun i => c * p i) l = c * psum p l := by
  induction l generalizing p with
  | nil => simp [psum]
  | cons d ds ih => rw [psum, psum, ih]; ring

/-- Shift identity for second-kind sums, driving the Clenshaw invariant. -/
lemma psum_u_succ (x : R) (l : List R) :
    psum (fun i => u (i + 1) x) l
      = 2 * x * psum (fun i => u i x) l - psum (fun i => u i x) l.tail := by
  cases l with
  | nil => simp [psum]
  | cons d ds =>
    rw [List.tail_cons, psum, psum]
    have h : psum (fun i => u (i + 1 + 1) x) ds
        = psum (fun i => 2 * x * u (i + 1) x - u i x) ds :=
      psum_congr (fun i => by rw [u]) ds
    rw [h, psum_sub, psum_mul, u, u]
    ring

lemma clenshawRec_fst (x : R) (l : List R) :
    (clenshawRec x l).1 = (clenshawRec x l.tail).2 := by
  cases l with
  | nil => rfl
  | cons c cs => rfl

/-- Loop invariant: the running value `b_k` carried by the Clenshaw loop is
the second-kind sum of the remaining coefficients. -/
lemma clenshawRec_spec (x : R) :
    ∀ l : List R, (clenshawRec x l).2 = psum (fun i => u i x) l
      ∧ (clenshawRec x l).1 = psum (fun i => u i x) l.tail := by
  intro l
  induction l with
  | nil => exact ⟨rfl, rfl⟩
  | cons c cs ih =>
    constructor
    · show c + 2 * x * (clenshawRec x cs).2 - (clenshawRec x cs).1
        = psum (fun i => u i x) (c :: cs)
      rw [ih.1, ih.2, psum, psum_u_succ]
      simp only [u]
      ring
    · show (clenshawRec x cs).2 = psum (fun i => u i x) cs
      exact ih.1

/-- The source's index-driven backward loop, read as a `foldr` over
`range (len - 1)`, coincides with the structural recursion `clenshawRec`. -/
lemma foldr_range_eq_clenshawRec (x : R) :
    ∀ a : List R, a ≠ [] →
      List.foldr (fun k (b : R × R) => (b.2, a.getD k 0 + 2 * x * b.2 - b.1))
        ((0 : R), a.getD (a.length - 1) 0) (List.range (a.length - 1))
        = clenshawRec x a := by
  intro a
  induction a with
  | nil => intro h; exact absurd rfl h
  | cons c rest ih =>
    intro _
    cases rest with
    | nil =>
      show ((0 : R), (c :: ([] : List R)).getD 0 0) = clenshawRec x [c]
      simp only [clenshawRec, List.getD_cons_zero, Prod.mk.injEq]
      exact ⟨trivial, by ring⟩
    | cons d ds =>
      have hlen : (c :: d :: ds).length - 1 = ds.length + 1 := by
        simp
      rw [hlen, List.range_succ_eq_map, List.foldr_cons, List.foldr_map]
      have hseed : (c :: d :: ds).getD (ds.length + 1) 0
          = (d :: ds).getD ((d :: ds).length - 1) 0 := by
        simp [List.getD_cons_succ]
      have hstep :
          (fun k (b : R × R) =>
              (b.2, (c :: d :: ds).getD (Nat.succ k) 0 + 2 * x * b.2 - b.1))
            = fun k (b : R × R) =>
              (b.2, (d :: ds).getD k 0 + 2 * x * b.2 - b.1) := by
        funext k b
        rw [Nat.succ_eq_add_one, List.getD_cons_succ]
      have hlen2 : ds.length = (d :: ds).length - 1 := by simp
      rw [hseed, hstep, hlen2, ih (List.cons_ne_nil d ds)]
      show ((clenshawRec x (d :: ds)).2,
          (c :: d :: ds).getD 0 0 + 2 * x * (clenshawRec x (d :: ds)).2
            - (clenshawRec x (d :: ds)).1) = clenshawRec x (c :: d :: ds)
      rw [List.getD_cons_zero]
      rfl

/-- `clenshaw` equals the closing combination of the structural recursion,
for every coefficient list including the degenerate ones. -/
lemma clenshaw_eq_rec (a : List R) (x : R) :
    clenshaw a x = (clenshawRec x a).2 - x * (clenshawRec x a).1 := by
  match a with
  | [] =>
    show (0 : R) = (0 : R) - x * 0
    ring
  | [c] =>
    show (c : R) = (c + 2 * x * 0 - 0) - x * 0
    ring
  | [a0, a1] =>
    show a0 + a1 * x = (a0 + 2 * x * (a1 + 2 * x * 0 - 0) - 0)
      - x * (a1 + 2 * x * 0 - 0)
    ring
  | a0 :: a1 :: a2 :: rest =>
    have h3 : (a0 :: a1 :: a2 :: rest).length = rest.length + 3 := by simp
    have hneg : ¬ (((a0 :: a1 :: a2 :: rest).length : ℤ) - 1 < 0) := by
      rw [h3]; omega
    have h0 : ¬ (((a0 :: a1 :: a2 :: rest).length : ℤ) - 1 = 0) := by
      rw [h3]; omega
    have h1 : ¬ (((a0 :: a1 :: a2 :: rest).length : ℤ) - 1 = 1) := by
      rw [h3]; omega
    have htn : (((a0 :: a1 :: a2 :: rest).length : ℤ) - 1).toNat
        = (a0 :: a1 :: a2 :: rest).length - 1 := by
      rw [h3]; omega
    rw [clenshaw]
    simp only [hneg, h0, h1, if_false, htn]
    rw [List.foldl_reverse,
      foldr_range_eq_clenshawRec x _ (List.cons_ne_nil a0 _)]

/-- First-kind from second-kind: `t (n+1) = u (n+1) - x * u n`. -/
lemma t_succ_eq (x : R) : ∀ n, t (n + 1) x = u (n + 1) x - x * u n x := by
  have key : ∀ n, (t (n + 1) x = u (n + 1) x - x * u n x)
      ∧ (t (n + 2) x = u (n + 2) x - x * u (n + 1) x) := by
    intro n
    induction n with
    | zero =>
      constructor
      · show x = 2 * x - x * 1
        ring
      · show 2 * x * x - 1 = (2 * x * (2 * x) - 1) - x * (2 * x)
        ring
    | succ m ih =>
      refine ⟨ih.2, ?_⟩
      show 2 * x * t (m + 2) x - t (m + 1) x
        = u (m + 3) x - x * u (m + 2) x
      rw [ih.1, ih.2]
      show 2 * x * (u (m + 2) x - x * u (m + 1) x)
          - (u (m + 1) x - x * u m x)
        = (2 * x * u (m + 2) x - u (m + 1) x)
          - x * (2 * x * u (m + 1) x - u m x)
      ring
  exact fun n => (key n).1

/-- The central refinement: `clenshaw` equals the naive oracle `tpoly`. -/
lemma clenshaw_eq_tpoly_aux (a : List R) (x : R) : clenshaw a x = tpoly a x := by
  rw [clenshaw_eq_rec, tpoly_eq_psum, (clenshawRec_spec x a).1,
    (clenshawRec_spec x a).2]
  cases a with
  | nil => simp [psum]
  | cons c cs =>
    rw [List.tail_cons, psum, psum]
    have h2 : psum (fun i => u (i + 1) x) cs - x * psum (fun i => u i x) cs
        = psum (fun i => t (i + 1) x) cs := by
      rw [← psum_mul x (fun i => u i x) cs, ← psum_sub]
      exact psum_congr (fun i => (t_succ_eq x i).symm) cs
    rw [← h2]
    simp only [t, u]
    ring

/-- The backward recurrence as the spec words it: `b (N+1) = 0`, `b N = a[N]`,
and `b k = a[k] + 2*x*b(k+1) - b(k+2)` for `k` from `N-1` down to `0`
(indices above `N+1` are irrelevant and set to `0`). -/
def bRec (a : List R) (x : R) (N : ℕ) (k : ℕ) : R :=
  if k = N + 1 then 0
  else if k = N then a.getD N 0
  else if h : k < N then
    a.getD k 0 + 2 * x * bRec a x N (k + 1) - bRec a x N (k + 2)
  else 0
termination_by N + 1 - k
decreasing_by
  · omega
  · omega

/-- The closing combination of the spec recurrence: run the backward
recurrence with standard seeding and return `b 0 - x * b 1`. -/
def generalPath (a : List R) (x : R) : R :=
  bRec a x (a.length - 1) 0 - x * bRec a x (a.length - 1) 1

/-- Each `b k` of the spec recurrence is the Clenshaw running value on the
coefficient suffix starting at `k`. -/
lemma bRec_eq_drop (a : List R) (x : R) (N : ℕ) (hlen : a.length = N + 1) :
    ∀ k, k ≤ N + 1 → bRec a x N k = (clenshawRec x (a.drop k)).2 := by
  have Htop : bRec a x N (N + 1) = (clenshawRec x (a.drop (N + 1))).2 := by
    rw [bRec]
    simp only [if_pos rfl]
    have hnil : a.drop (N + 1) = [] := List.drop_eq_nil_of_le (by omega)
    rw [hnil]
    rfl
  have HN : bRec a x N N = (clenshawRec x (a.drop N)).2 := by
    rw [bRec]
    have hne1 : ¬ N = N + 1 := by omega
    rw [if_neg hne1, if_pos rfl]
    have hNlen : N < a.length := by omega
    have hd : a.drop N = [a.getD N 0] := by
      rw [List.getD_eq_getElem a 0 hNlen, List.drop_eq_getElem_cons hNlen]
      have hnil : a.drop (N + 1) = [] := List.drop_eq_nil_of_le (by omega)
      rw [hnil]
    rw [hd]
    show a.getD N 0 = a.getD N 0 + 2 * x * 0 - 0
    ring
  have H : ∀ m k, k ≤ N + 1 → N + 1 - k ≤ m →
      bRec a x N k = (clenshawRec x (a.drop k)).2 := by
    intro m
    induction m with
    | zero =>
      intro k hk hm
      have hk1 : k = N + 1 := by omega
      subst hk1
      exact Htop
    | succ m ih =>
      intro k hk hm
      rcases Nat.lt_or_ge k N with hkN | hkge
      · rw [bRec]
        have hne1 : ¬ k = N + 1 := by omega
        have hneN : ¬ k = N := by omega
        rw [if_neg hne1, if_neg hneN, dif_pos hkN]
        have hd : a.drop k = a.getD k 0 :: a.drop (k + 1) := by
          have hklen : k < a.length := by omega
          rw [List.getD_eq_getElem a 0 hklen]
          exact List.drop_eq_getElem_cons hklen
        rw [ih (k + 1) (by omega) (by omega),
          ih (k + 1 + 1) (by omega) (by omega), hd]
        show a.getD k 0 + 2 * x * (clenshawRec x (a.drop (k + 1))).2
            - (clenshawRec x (a.drop (k + 1 + 1))).2
          = a.getD k 0 + 2 * x * (clenshawRec x (a.drop (k + 1))).2
            - (clenshawRec x (a.drop (k + 1))).1
        rw [clenshawRec_fst, List.tail_drop]
      · rcases Nat.lt_or_ge k (N + 1) with hlt | hge
        · have hkN : k = N := by omega
          subst hkN
          exact HN
        · have hk1 : k = N + 1 := by omega
          subst hk1
          exact Htop
  exact fun k hk => H (N + 1 - k) k hk (le_refl _)

/-- Bounds-checked variant of `clenshaw`: every subscript `a[...]` of the
source is replaced by the checked lookup `a[...]?`, so the result is `none`
exactly when some execution path would index out of range. -/
def clenshawChk (a : List R) (x : R) : Option R :=
  let N : ℤ := (a.length : ℤ) - 1
  if N < 0 then some 0
  else if N = 0 then a[0]?
  else if N = 1 then
    a[0]?.bind fun a0 => a[1]?.bind fun a1 => some (a0 + a1 * x)
  else
    (a[N.toNat]?).bind fun aN =>
      (((List.range N.toNat).reverse).foldlM
        (fun (b : R × R) k =>
          (a[k]?).bind fun ak => some ((b.2, ak + 2 * x * b.2 - b.1) : R × R))
        ((0 : R), aN)).bind fun s => some (s.2 - x * s.1)

lemma foldlM_checked (a : List R) (x : R) :
    ∀ (ks : List ℕ) (s : R × R), (∀ k ∈ ks, k < a.length) →
      ks.foldlM
        (fun (b : R × R) k =>
          (a[k]?).bind fun ak => some ((b.2, ak + 2 * x * b.2 - b.1) : R × R))
        s
      = some (ks.foldl
          (fun (b : R × R) k => (b.2, a.getD k 0 + 2 * x * b.2 - b.1)) s) := by
  intro ks
  induction ks with
  | nil => intro s h; rfl
  | cons k ks ih =>
    intro s h
    have hk : k < a.length := h k (List.mem_cons_self k ks)
    rw [List.foldlM_cons, List.getElem?_eq_getElem hk]
    show (ks.foldlM _ (s.2, a[k] + 2 * x * s.2 - s.1)) = _
    rw [List.foldl_cons, List.getD_eq_getElem a 0 hk]
    exact ih _ fun j hj => h j (List.mem_cons_of_mem k hj)

/-- All indexing in `clenshaw` is in bounds: the checked evaluator always
succeeds and returns the unchecked value. -/
lemma clenshawChk_eq (a : List R) (x : R) :
    clenshawChk a x = some (clenshaw a x) := by
  match a with
  | [] => rfl
  | [a0] => rfl
  | [a0, a1] => rfl
  | a0 :: a1 :: a2 :: rest =>
    have h3 : (a0 :: a1 :: a2 :: rest).length = rest.length + 3 := by simp
    have hneg : ¬ (((a0 :: a1 :: a2 :: rest).length : ℤ) - 1 < 0) := by
      rw [h3]; omega
    have h0 : ¬ (((a0 :: a1 :: a2 :: rest).length : ℤ) - 1 = 0) := by
      rw [h3]; omega
    have h1 : ¬ (((a0 :: a1 :: a2 :: rest).length : ℤ) - 1 = 1) := by
      rw [h3]; omega
    have htlt : (((a0 :: a1 :: a2 :: rest).length : ℤ) - 1).toNat
        < (a0 :: a1 :: a2 :: rest).length := by
      rw [h3]; omega
    have hinb : ∀ k ∈ (List.range
        (((a0 :: a1 :: a2 :: rest).length : ℤ) - 1).toNat).reverse,
        k < (a0 :: a1 :: a2 :: rest).length := by
      intro k hk
      rw [List.mem_reverse, List.mem_range] at hk
      omega
    rw [clenshawChk, clenshaw]
    simp only [hneg, h0, h1, if_false]
    rw [List.getElem?_eq_getElem htlt,
      ← List.getD_eq_getElem (a0 :: a1 :: a2 :: rest) 0 htlt, Option.some_bind,
      foldlM_checked (a0 :: a1 :: a2 :: rest) x _ _ hinb, Option.some_bind]

/-- Fuel-bounded form of the naive double recursion `t`: with zero fuel the
computation is abandoned, otherwise each recursive call spends one unit. -/
def tF (fuel : ℕ) (n : ℕ) (x : R) : Option R :=
  match fuel with
  | 0 => none
  | f + 1 =>
    match n with
    | 0 => some 1
    | 1 => some x
    | m + 2 =>
      (tF f (m + 1) x).bind fun v1 =>
        (tF f m x).bind fun v2 => some (2 * x * v1 - v2)

/-- The fuel-bounded recursion succeeds whenever the fuel exceeds the index,
and computes the total function `t`. -/
lemma tF_of_lt : ∀ (f n : ℕ), n < f → ∀ x : R, tF f n x = some (t n x) := by
  intro f
  induction f with
  | zero => intro n h; omega
  | succ f ih =>
    intro n h x
    match n with
    | 0 => rfl
    | 1 => rfl
    | m + 2 =>
      show (tF f (m + 1) x).bind _ = _
      rw [ih (m + 1) (by omega) x, ih m (by omega) x]
      rfl

/-- Fuel-bounded form of `tpoly`, running the naive recursion with fuel
`len(c)` for every basis index. -/
def tpolyF (c : List R) (x : R) : Option R :=
  (List.range c.length).foldlM
    (fun s i => (tF c.length i x).bind fun v => some (s + c.getD i 0 * v)) 0

lemma foldlM_tpolyF (c : List R) (x : R) :
    ∀ (ks : List ℕ) (s : R), (∀ k ∈ ks, k < c.length) →
      ks.foldlM
        (fun s i => (tF c.length i x).bind fun v => some (s + c.getD i 0 * v)) s
      = some (ks.foldl (fun s i => s + c.getD i 0 * t i x) s) := by
  intro ks
  induction ks with
  | nil => intro s h; rfl
  | cons k ks ih =>
    intro s h
    have hk : k < c.length := h k (List.mem_cons_self k ks)
    rw [List.foldlM_cons, tF_of_lt c.length k hk x]
    show (ks.foldlM _ (s + c.getD k 0 * t k x)) = _
    rw [List.foldl_cons]
    exact ih _ fun j hj => h j (List.mem_cons_of_mem k hj)

lemma foldl_add_eq_sum (f : ℕ → R) :
    ∀ (l : List ℕ) (s : R), l.foldl (fun s i => s + f i) s = s + (l.map f).sum := by
  intro l
  induction l with
  | nil => intro s; simp
  | cons k ks ih =>
    intro s
    rw [List.foldl_cons, List.map_cons, List.sum_cons, ih]
    ring

/-- The fuel-bounded naive oracle always succeeds and computes `tpoly`. -/
lemma tpolyF_eq (c : List R) (x : R) : tpolyF c x = some (tpoly c x) := by
  rw [tpolyF, foldlM_tpolyF c x _ _ (fun k hk => List.mem_range.mp hk),
    foldl_add_eq_sum, tpoly]
  rw [zero_add]

/-- Element-wise sums of equal-length lists add under `psum`. -/
lemma psum_zipWith_add (p : ℕ → R) :
    ∀ (a b : List R), a.length = b.length →
      psum p (List.zipWith (· + ·) a b) = psum p a + psum p b := by
  intro a
  induction a generalizing p with
  | nil =>
    intro b h
    have : b = [] := List.length_eq_zero.mp h.symm
    subst this
    show (0 : R) = 0 + 0
    ring
  | cons c cs ih =>
    intro b h
    match b with
    | d :: ds =>
      rw [List.zipWith_cons_cons, psum, psum, psum,
        ih (fun i => p (i + 1)) ds (by simpa using h)]
      ring

/-- Element-wise scaling factors out of `psum`. -/
lemma psum_map_mul (p : ℕ → R) (k : R) :
    ∀ a : List R, psum p (a.map fun c => k * c) = k * psum p a := by
  intro a
  induction a generalizing p with
  | nil => show (0 : R) = k * 0; ring
  | cons c cs ih =>
    rw [List.map_cons, psum, psum, ih fun i => p (i + 1)]
    ring

/-- Claim C1: for every coefficient sequence `a` and every real `x`,
`clenshaw a x` equals the naive basis-summation oracle `tpoly a x`
= Σ a_i·T_i(x), where the basis `t` satisfies T_0 = 1, T_1 = x,
T_n = 2x·T_{n-1} − T_{n-2}, with exact equality. -/
theorem C1_clenshaw_eq_tpoly (a : List ℝ) (x : ℝ) : clenshaw a x = tpoly a x :=
  clenshaw_eq_tpoly_aux a x

/-- Claim C2: for every coefficient sequence of length at least 3 and every
real `x`, `clenshaw` computes exactly the backward recurrence seeded
b_{N+1} = 0, b_N = a[N], with b_k = a[k] + 2x·b_{k+1} − b_{k+2}, returning
b_0 − x·b_1. -/
theorem C2_clenshaw_backward_recurrence (a : List ℝ) (x : ℝ)
    (h : 3 ≤ a.length) :
    clenshaw a x
      = bRec a x (a.length - 1) 0 - x * bRec a x (a.length - 1) 1 := by
  have hlen : a.length = (a.length - 1) + 1 := by omega
  rw [clenshaw_eq_rec, bRec_eq_drop a x (a.length - 1) hlen 0 (by omega),
    bRec_eq_drop a x (a.length - 1) hlen 1 (by omega), List.drop_zero,
    clenshawRec_fst, ← List.drop_one]

theorem C2_witness :
    3 ≤ ([1, 2, 3] : List ℝ).length ∧
      clenshaw ([1, 2, 3] : List ℝ) 2
        = bRec ([1, 2, 3] : List ℝ) 2 (([1, 2, 3] : List ℝ).length - 1) 0
          - 2 * bRec ([1, 2, 3] : List ℝ) 2 (([1, 2, 3] : List ℝ).length - 1) 1 :=
  ⟨by decide, C2_clenshaw_backward_recurrence [1, 2, 3] 2 (by decide)⟩

/-- Claim C3: degenerate cases: `clenshaw [] x = 0`, `clenshaw [c] x = c`,
and `clenshaw [a0, a1] x = a0 + a1·x`, for all reals involved. -/
theorem C3_degenerate_cases :
    (∀ x : ℝ, clenshaw [] x = 0) ∧ (∀ c x : ℝ, clenshaw [c] x = c) ∧
      (∀ a0 a1 x : ℝ, clenshaw [a0, a1] x = a0 + a1 * x) :=
  ⟨fun _ => rfl, fun _ _ => rfl, fun _ _ _ => rfl⟩

/-- Claim C4: `clenshaw` is total on every finite coefficient sequence and
real point: the bounds-checked variant, in which every list subscript of the
source is a checked lookup, always succeeds and returns the same value, so no
execution path indexes out of range. -/
theorem C4_total_no_out_of_range (a : List ℝ) (x : ℝ) :
    clenshawChk a x = some (clenshaw a x) :=
  clenshawChk_eq a x

/-- Claim C5: linearity: for equal-length coefficient sequences, evaluating
the element-wise sum equals the sum of the evaluations, exactly. -/
theorem C5_linearity (a b : List ℝ) (x : ℝ) (h : a.length = b.length) :
    clenshaw (List.zipWith (· + ·) a b) x = clenshaw a x + clenshaw b x := by
  rw [clenshaw_eq_tpoly_aux, clenshaw_eq_tpoly_aux, clenshaw_eq_tpoly_aux,
    tpoly_eq_psum, tpoly_eq_psum, tpoly_eq_psum, psum_zipWith_add _ a b h]

theorem C5_witness :
    ([1, 2] : List ℝ).length = ([3, 4] : List ℝ).length ∧
      clenshaw (List.zipWith (· + ·) ([1, 2] : List ℝ) [3, 4]) 5
        = clenshaw ([1, 2] : List ℝ) 5 + clenshaw ([3, 4] : List ℝ) 5 :=
  ⟨rfl, C5_linearity [1, 2] [3, 4] 5 rfl⟩

/-- Claim C6: homogeneity: scaling every coefficient by `k` scales the
evaluated series by `k`, exactly. -/
theorem C6_homogeneity (k : ℝ) (a : List ℝ) (x : ℝ) :
    clenshaw (a.map fun c => k * c) x = k * clenshaw a x := by
  rw [clenshaw_eq_tpoly_aux, clenshaw_eq_tpoly_aux, tpoly_eq_psum,
    tpoly_eq_psum, psum_map_mul]

/-- Claim C7: the short-circuit cases for one and two coefficients return
exactly what the general recurrence path (`generalPath`, the spec-seeded
backward recurrence closed by b_0 − x·b_1) produces: `c` on `[c]` and
`a0 + a1·x` on `[a0, a1]`. -/
theorem C7_short_circuit_matches_general_path :
    (∀ c x : ℝ, clenshaw [c] x = generalPath [c] x ∧ generalPath [c] x = c) ∧
      (∀ a0 a1 x : ℝ, clenshaw [a0, a1] x = generalPath [a0, a1] x ∧
        generalPath [a0, a1] x = a0 + a1 * x) := by
  constructor
  · intro c x
    have h0 := bRec_eq_drop [c] x 0 rfl 0 (by omega)
    have h1 := bRec_eq_drop [c] x 0 rfl 1 (by omega)
    have hgp : generalPath [c] x = c := by
      show bRec [c] x 0 0 - x * bRec [c] x 0 1 = c
      rw [h0, h1]
      show (c + 2 * x * 0 - 0) - x * 0 = c
      ring
    exact ⟨by rw [hgp]; rfl, hgp⟩
  · intro a0 a1 x
    have h0 := bRec_eq_drop [a0, a1] x 1 rfl 0 (by omega)
    have h1 := bRec_eq_drop [a0, a1] x 1 rfl 1 (by omega)
    have hgp : generalPath [a0, a1] x = a0 + a1 * x := by
      show bRec [a0, a1] x 1 0 - x * bRec [a0, a1] x 1 1 = a0 + a1 * x
      rw [h0, h1]
      show (a0 + 2 * x * (a1 + 2 * x * 0 - 0) - 0) - x * (a1 + 2 * x * 0 - 0)
        = a0 + a1 * x
      ring
    exact ⟨by rw [hgp]; rfl, hgp⟩

/-- Claim C8: on the pure-T_2 coefficient vector `[0, 0, 1, 0]` at `x = 1/2`
(which runs the general recurrence path), the evaluator returns
T_2(1/2) = 2·(1/2)² − 1 = −1/2. -/
theorem C8_pure_T2_at_half :
    clenshaw ([0, 0, 1, 0] : List ℝ) (1 / 2) = -(1 / 2)
      ∧ t 2 (1 / 2 : ℝ) = 2 * (1 / 2) ^ 2 - 1
      ∧ (2 * (1 / 2 : ℝ) ^ 2 - 1) = -(1 / 2) := by
  refine ⟨?_, ?_, by norm_num⟩
  · rw [clenshaw_eq_rec]
    simp only [clenshawRec]
    norm_num
  · show 2 * (1 / 2 : ℝ) * t 1 (1 / 2) - t 0 (1 / 2) = 2 * (1 / 2) ^ 2 - 1
    show 2 * (1 / 2 : ℝ) * (1 / 2) - 1 = 2 * (1 / 2) ^ 2 - 1
    norm_num

/-- Claim C9: endpoint scenarios for `[2, -1, 1/2]`: at `x = 1` the value is
the plain coefficient sum 3/2, and at `x = -1` the alternating-sign sum
7/2. -/
theorem C9_endpoints :
    clenshaw ([2, -1, 1 / 2] : List ℝ) 1 = 3 / 2
      ∧ clenshaw ([2, -1, 1 / 2] : List ℝ) (-1) = 7 / 2 := by
  constructor
  · rw [clenshaw_eq_rec]
    simp only [clenshawRec]
    norm_num
  · rw [clenshaw_eq_rec]
    simp only [clenshawRec]
    norm_num

/-- Claim C10: the naive double recursion behind `t` is well-founded: its
fuel-bounded form `tF` succeeds with fuel `n + 1` and computes the total
function `t`, and likewise the fuel-bounded form of `tpoly` succeeds on every
finite coefficient sequence. -/
theorem C10_naive_recursion_total :
    (∀ (n : ℕ) (x : ℝ), tF (n + 1) n x = some (t n x)) ∧
      (∀ (c : List ℝ) (x : ℝ), tpolyF c x = some (tpoly c x)) :=
  ⟨fun n x => tF_of_lt (n + 1) n (by omega) x, fun c x => tpolyF_eq c x⟩

end Keycheb
